import Mathlib

/-!
Verification of the 3-stage LLM council orchestration (backend/council.py and
backend/llm_client.py) against its design specification.

Embedding conventions:
* Text that the parser scans is modelled as `List Char` (Python `str` is a
  sequence of code points); top-level functions take `String` and work on
  `String.toList`.
* The Python regex classes are modelled at the character level: `\d` as
  `Char.isDigit`, `\s` as the explicit ASCII whitespace set, `[A-Z]` as the
  ASCII range check.  `re.findall` is the usual left-to-right non-overlapping
  scan; it is implemented with a fuel argument equal to the input length so
  that it is structurally recursive (each step consumes at least one
  character, so the fuel never runs out; `scanBare_fuel` below shows the
  fuel is irrelevant beyond the input length).
* Python dicts (`label_to_model`, the `defaultdict` of positions, the
  response map of `query_models_parallel`) preserve insertion order and are
  modelled as association lists in insertion order.
* The only float in the program is `average_rank = round(sum/len, 2)`, a
  value with two decimal digits; it is modelled exactly as its integer
  number of hundredths (`avgHundredths`), computed by integer arithmetic
  with round-half-to-even (Python `round`).  The bridge lemma
  `roundHalfEvenDiv_eq_roundQ` shows this equals rounding the exact rational
  mean.  Sorting by the float and sorting by the hundredths agree because
  `x ↦ x / 100` is strictly monotone.
* Network calls are modelled by an `Oracle` giving each model's response
  (`none` = failure), matching the adapters' contract of returning `None`
  on any failure.
-/

namespace Council

/-! ### Rank parser: `parse_ranking_from_text` -/

/-- ASCII capital letter test, the regex class `[A-Z]`. -/
def isUpperAZ (c : Char) : Bool :=
  decide ('A' ≤ c) && decide (c ≤ 'Z')

/-- ASCII whitespace, modelling the regex class `\s`. -/
def isSpaceChar (c : Char) : Bool :=
  c = ' ' || c = '\t' || c = '\n' || c = '\r' || c = '\x0b' || c = '\x0c'

/-- Attempt to match the regex `Response [A-Z]` at the head of the input;
on success return the captured letter and the unconsumed rest. -/
def tryBare : List Char → Option (Char × List Char)
  | 'R' :: 'e' :: 's' :: 'p' :: 'o' :: 'n' :: 's' :: 'e' :: ' ' :: c :: rest =>
    if isUpperAZ c then some (c, rest) else none
  | _ => none

/-- The label string `"Response X"` for a letter `X`. -/
def bareLabel (c : Char) : String :=
  "Response ".push c

/-- Attempt to match the regex `\d+\.\s*Response [A-Z]` at the head of the
input.  Maximal munch for `\d+` and `\s*` is faithful to the backtracking
regex: `.` is not a digit and `R` is not whitespace, so shorter munches can
never make the overall match succeed. -/
def tryNumbered (s : List Char) : Option (Char × List Char) :=
  match s with
  | c :: rest =>
    if c.isDigit then
      match rest.dropWhile Char.isDigit with
      | '.' :: rest2 => tryBare (rest2.dropWhile isSpaceChar)
      | _ => none
    else none
  | [] => none

/-- Left-to-right non-overlapping scan for `Response [A-Z]`
(`re.findall(r'Response [A-Z]', ...)`), fuelled. -/
def scanBare : Nat → List Char → List String
  | 0, _ => []
  | _, [] => []
  | fuel + 1, c :: cs =>
    match tryBare (c :: cs) with
    | some (x, rest) => bareLabel x :: scanBare fuel rest
    | none => scanBare fuel cs

/-- Left-to-right non-overlapping scan for `\d+\.\s*Response [A-Z]`, with the
`Response [A-Z]` part extracted from each match (the code re-searches each
match with `re.search(r'Response [A-Z]', m)`), fuelled. -/
def scanNumbered : Nat → List Char → List String
  | 0, _ => []
  | _, [] => []
  | fuel + 1, c :: cs =>
    match tryNumbered (c :: cs) with
    | some (x, rest) => bareLabel x :: scanNumbered fuel rest
    | none => scanNumbered fuel cs

/-- All matches of `Response [A-Z]` in order, non-overlapping. -/
def findAllBare (s : List Char) : List String :=
  scanBare s.length s

/-- All matches of `\d+\.\s*Response [A-Z]` in order, non-overlapping, with
the label extracted from each match. -/
def findAllNumbered (s : List Char) : List String :=
  scanNumbered s.length s

/-- The literal marker `"FINAL RANKING:"`. -/
def marker : List Char :=
  "FINAL RANKING:".toList

/-- Python's `"FINAL RANKING:" in text` substring test. -/
def hasMarker : List Char → Bool
  | [] => false
  | c :: cs => marker.isPrefixOf (c :: cs) || hasMarker cs

/-- The suffix of the text strictly after the first occurrence of the
marker (everything, including later occurrences). -/
def afterMarker : List Char → List Char
  | [] => []
  | c :: cs =>
    if marker.isPrefixOf (c :: cs) then (c :: cs).drop marker.length
    else afterMarker cs

/-- The prefix of the text strictly before the first occurrence of the
marker (the whole text if the marker is absent). -/
def untilMarker : List Char → List Char
  | [] => []
  | c :: cs =>
    if marker.isPrefixOf (c :: cs) then [] else c :: untilMarker cs

/-- Parsing of one marker-selected region: prefer the numbered matches;
if there are none, fall back to the bare matches in the region. -/
def parseRegion (region : List Char) : List String :=
  let numbered := findAllNumbered region
  if numbered.isEmpty then findAllBare region else numbered

/-- Embedding of `parse_ranking_from_text` (council.py).  When the marker is
present, `text.split("FINAL RANKING:")[1]` is the segment between the first
occurrence and the next occurrence (or the end), i.e.
`untilMarker (afterMarker s)`; the `len(parts) >= 2` guard in the code is
always true when the marker is present.  When the marker is absent the whole
raw text is scanned for bare labels. -/
def parseRanking (s : List Char) : List String :=
  if hasMarker s then parseRegion (untilMarker (afterMarker s))
  else findAllBare s

/-- String-level entry point of the rank parser. -/
def parse_ranking_from_text (s : String) : List String :=
  parseRanking s.toList

/-- Claim-side variant (from the spec's words, for claim C1): scan the whole
remainder after the first marker occurrence, including any content after
later occurrences. -/
def parseWholeRemainder (s : List Char) : List String :=
  parseRegion (afterMarker s)

/-! ### Data model -/

/-- One successful Stage 1 answer (`{"model": ..., "response": ...}`). -/
structure Stage1Result where
  model : String
  response : String
deriving DecidableEq

/-- One successful Stage 2 ranking
(`{"model": ..., "ranking": ..., "parsed_ranking": ...}`). -/
structure Stage2Result where
  model : String
  ranking : String
  parsed_ranking : List String
deriving DecidableEq

/-- One aggregate leaderboard entry.  `average_rank` holds the float
`round(sum/len, 2)` exactly, as its number of hundredths. -/
structure AggregateEntry where
  model : String
  average_rank : Nat
  rankings_count : Nat
deriving DecidableEq


/-! ### Aggregator: `calculate_aggregate_rankings` -/

/-- Ordered-dict lookup on an association list (Python `d[k]` / `k in d`). -/
def lookupL {α : Type} : List (String × α) → String → Option α
  | [], _ => none
  | (k, v) :: rest, key => if k = key then some v else lookupL rest key

/-- Append one position to a model's list in the ordered
`defaultdict(list)`: an existing key keeps its place, a new key is
inserted at the end (Python dict insertion order). -/
def addPosition : List (String × List Nat) → String → Nat → List (String × List Nat)
  | [], m, p => [(m, [p])]
  | (k, ps) :: rest, m, p =>
    if k = m then (k, ps ++ [p]) :: rest
    else (k, ps) :: addPosition rest m p

/-- Walk one parsed ranking with `enumerate(..., start=1)`: every label that
is a key of `label_to_model` records its 1-based position under that
label's model. -/
def recordLabels (ltm : List (String × String)) :
    List (String × List Nat) → Nat → List String → List (String × List Nat)
  | mps, _, [] => mps
  | mps, pos, lab :: rest =>
    match lookupL ltm lab with
    | some m => recordLabels ltm (addPosition mps m pos) (pos + 1) rest
    | none => recordLabels ltm mps (pos + 1) rest

/-- The `model_positions` dict after all rankers are processed; each
ranker's raw text is re-parsed (the stored `parsed_ranking` is not read). -/
def buildPositions (stage2 : List Stage2Result) (ltm : List (String × String)) :
    List (String × List Nat) :=
  stage2.foldl (fun mps r => recordLabels ltm mps 1 (parse_ranking_from_text r.ranking)) []

/-- Round `a / b` (with `b > 0`) to the nearest integer, ties to even:
Python's `round` on the exact quotient. -/
def roundHalfEvenDiv (a b : Nat) : Nat :=
  let q := a / b
  let r := a % b
  if 2 * r < b then q
  else if b < 2 * r then q + 1
  else if q % 2 = 0 then q else q + 1

/-- The stored `round(sum(positions)/len(positions), 2)` as hundredths. -/
def avgHundredths (ps : List Nat) : Nat :=
  roundHalfEvenDiv (100 * ps.sum) ps.length

/-- Build the unsorted aggregate list from the positions dict, in dict
(encounter) order; the `if positions:` guard of the code is kept. -/
def aggregateOf (mps : List (String × List Nat)) : List AggregateEntry :=
  mps.filterMap fun mp =>
    if mp.2 = [] then none
    else some ⟨mp.1, avgHundredths mp.2, mp.2.length⟩

/-- The aggregate list before sorting, in encounter order. -/
def aggregateUnsorted (stage2 : List Stage2Result) (ltm : List (String × String)) :
    List AggregateEntry :=
  aggregateOf (buildPositions stage2 ltm)

/-- The sort key relation: `aggregate.sort(key=lambda x: x['average_rank'])`
compares the rounded averages (comparing hundredths is the same order). -/
def aggLE (x y : AggregateEntry) : Prop :=
  x.average_rank ≤ y.average_rank

instance : DecidableRel aggLE := fun x y => Nat.decLe x.average_rank y.average_rank

instance : IsTotal AggregateEntry aggLE :=
  ⟨fun x y => Nat.le_total x.average_rank y.average_rank⟩

instance : IsTrans AggregateEntry aggLE :=
  ⟨fun _ _ _ => Nat.le_trans⟩

/-- Embedding of `calculate_aggregate_rankings` (council.py).  Python's
`list.sort` is stable; `List.insertionSort` with a total preorder key is
the same stable sort. -/
def calculate_aggregate_rankings (stage2 : List Stage2Result)
    (ltm : List (String × String)) : List AggregateEntry :=
  List.insertionSort aggLE (aggregateUnsorted stage2 ltm)

/-! ### Claim-side descriptions of the aggregation -/

/-- Claim-side description of the position walk: the 1-based positions,
within one parsed ranking walked in order, at which a label mapped to `m`
occurs (with multiplicity). -/
def posOf (ltm : List (String × String)) (m : String) : Nat → List String → List Nat
  | _, [] => []
  | pos, lab :: rest =>
    if lookupL ltm lab = some m then pos :: posOf ltm m (pos + 1) rest
    else posOf ltm m (pos + 1) rest

/-- Claim-side description: all positions recorded for model `m` across all
rankers, in ranker order. -/
def specPositions (stage2 : List Stage2Result) (ltm : List (String × String))
    (m : String) : List Nat :=
  (stage2.map fun r => posOf ltm m 1 (parse_ranking_from_text r.ranking)).flatten

/-- The exact arithmetic mean of a list of positions, as a rational. -/
def Qmean (ps : List Nat) : ℚ :=
  (ps.sum : ℚ) / (ps.length : ℚ)

/-- Round a rational to the nearest integer, ties to even (Python `round`). -/
def roundHalfEvenQ (q : ℚ) : ℤ :=
  if q - ⌊q⌋ < 1 / 2 then ⌊q⌋
  else if 1 / 2 < q - ⌊q⌋ then ⌊q⌋ + 1
  else if ⌊q⌋ % 2 = 0 then ⌊q⌋ else ⌊q⌋ + 1

/-- Round a rational to two decimal digits (Python `round(q, 2)`). -/
def round2Q (q : ℚ) : ℚ :=
  (roundHalfEvenQ (100 * q) : ℚ) / 100


/-- The keys of the positions dict, in insertion order. -/
def keysOf (mps : List (String × List Nat)) : List String :=
  mps.map Prod.fst

/-! ### Stage 2 labelling -/

/-- The anonymized label of position `i`: `f"Response {chr(65 + i)}"`. -/
def labelStr (i : Nat) : String :=
  "Response ".push (Char.ofNat (65 + i))

/-- The label list `[chr(65 + i) for i in range(n)]`, with the
`"Response "` noun already attached. -/
def labelsList (n : Nat) : List String :=
  (List.range n).map labelStr

/-- Embedding of the `label_to_model` dict built in
`stage2_collect_rankings`: `zip(labels, stage1_results)` keyed by
`f"Response {label}"`, in order. -/
def label_to_model (results : List Stage1Result) : List (String × String) :=
  ((List.range results.length).zip results).map fun p => (labelStr p.1, p.2.model)

/-! ### Full pipeline: `run_full_council` -/

/-- The configured council (config.py). -/
def COUNCIL_MODELS : List String :=
  ["openai/gpt-5", "google/gemini-3-pro-preview"]

/-- The configured chairman (config.py). -/
def CHAIRMAN_MODEL : String :=
  "google/gemini-3-pro-preview"

/-- The network, abstracted: each field gives the content a model returns
for the corresponding query round, `none` meaning the adapter reported
failure.  The three rounds are separate because each sends a different
prompt. -/
structure Oracle where
  stage1Response : String → Option String
  stage2Response : String → Option String
  stage3Response : Option String

/-- Embedding of `query_models_parallel`: a response map with one entry per
queried model, in query order (`zip(models, responses)` into a dict). -/
def query_models_parallel (models : List String) (resp : String → Option String) :
    List (String × Option String) :=
  models.map fun m => (m, resp m)

/-- Embedding of `stage1_collect_responses`: keep only successful responses,
in the response map's order. -/
def stage1_collect_responses (o : Oracle) : List Stage1Result :=
  (query_models_parallel COUNCIL_MODELS o.stage1Response).filterMap fun p =>
    p.2.map fun c => ⟨p.1, c⟩

/-- Embedding of `stage2_collect_rankings`: query the whole council again,
keep successes, storing raw text and its parse; also return the label map
built from the Stage 1 results. -/
def stage2_collect_rankings (o : Oracle) (stage1 : List Stage1Result) :
    List Stage2Result × List (String × String) :=
  ((query_models_parallel COUNCIL_MODELS o.stage2Response).filterMap fun p =>
      p.2.map fun c => ⟨p.1, c, parse_ranking_from_text c⟩,
    label_to_model stage1)

/-- The Stage 3 payload (`{"model": ..., "response": ...}`). -/
structure Stage3Result where
  model : String
  response : String
deriving DecidableEq

/-- Embedding of `stage3_synthesize_final`'s result: the chairman's content,
or the fixed error text when the chairman query fails. -/
def stage3_synthesize_final (o : Oracle) : Stage3Result :=
  match o.stage3Response with
  | none => ⟨CHAIRMAN_MODEL, "Error: Unable to generate final synthesis."⟩
  | some c => ⟨CHAIRMAN_MODEL, c⟩

/-- The metadata dict of a completed turn. -/
structure Metadata where
  label_to_model : List (String × String)
  aggregate_rankings : List AggregateEntry
deriving DecidableEq

/-- The tuple returned by `run_full_council`, plus an audit counter:
`metadata = none` models the empty dict `{}` of the short-circuit branch,
and `callsAfterStage1` counts the model queries issued after Stage 1
(`len(COUNCIL_MODELS)` for Stage 2 plus one for the chairman). -/
structure RunResult where
  stage1 : List Stage1Result
  stage2 : List Stage2Result
  stage3 : Stage3Result
  metadata : Option Metadata
  callsAfterStage1 : Nat
deriving DecidableEq

/-- Embedding of `run_full_council` (council.py). -/
def run_full_council (o : Oracle) : RunResult :=
  let stage1 := stage1_collect_responses o
  if stage1.isEmpty then
    ⟨[], [], ⟨"error", "All models failed to respond. Please try again."⟩, none, 0⟩
  else
    let s2 := stage2_collect_rankings o stage1
    let agg := calculate_aggregate_rankings s2.1 s2.2
    ⟨stage1, s2.1, stage3_synthesize_final o, some ⟨s2.2, agg⟩,
      COUNCIL_MODELS.length + 1⟩

/-! ### Title generation -/

/-- Strip characters satisfying `p` from both ends (Python `str.strip`). -/
def stripWhile (p : Char → Bool) (s : List Char) : List Char :=
  ((s.dropWhile p).reverse.dropWhile p).reverse

/-- The character set of `strip('"\'')`. -/
def isQuoteChar (c : Char) : Bool :=
  c = '"' || c = '\''

/-- Embedding of `generate_conversation_title`: `resp` is the title model's
response (`none` = failure).  The content is stripped of whitespace, then
of surrounding quotes, and truncated to 47 characters plus `"..."` when
longer than 50. -/
def generate_conversation_title (resp : Option String) : String :=
  match resp with
  | none => "New Conversation"
  | some content =>
    let title := stripWhile isQuoteChar (stripWhile isSpaceChar content.toList)
    if 50 < title.length then ⟨title.take 47 ++ "...".toList⟩ else ⟨title⟩

/-! ### Claim-side variant of the aggregator (claim C9) -/

/-- The positions dict computed from the stored `parsed_ranking` fields
instead of re-parsing the raw texts. -/
def buildPositionsFromParsed (stage2 : List Stage2Result)
    (ltm : List (String × String)) : List (String × List Nat) :=
  stage2.foldl (fun mps r => recordLabels ltm mps 1 r.parsed_ranking) []

/-- The aggregate computed from the stored `parsed_ranking` fields. -/
def calcAggregateFromParsed (stage2 : List Stage2Result)
    (ltm : List (String × String)) : List AggregateEntry :=
  List.insertionSort aggLE (aggregateOf (buildPositionsFromParsed stage2 ltm))

/-! ### Concrete data used in the claim checks -/

/-- Two Stage 1 results; their labels are `Response A` (model `mA`) and
`Response B` (model `mB`). -/
def s1pair : List Stage1Result :=
  [⟨"mA", "answer from mA"⟩, ⟨"mB", "answer from mB"⟩]

/-- A ranker text ending in exactly the marker followed by
`1. Response B` and `2. Response A` (claim C8). -/
def roundTripText : String :=
  "Response A is ok. Response B is better.\n\nFINAL RANKING:\n1. Response B\n2. Response A\n"

/-- A text in which the marker occurs twice (claim C1). -/
def twoMarkerText : String :=
  "FINAL RANKING:\n1. Response A\nFINAL RANKING:\n1. Response B"

/-- Ranker text ranking B over A. -/
def rkBA : String := "FINAL RANKING:\n1. Response B\n2. Response A"

/-- Ranker text ranking A over B. -/
def rkAB : String := "FINAL RANKING:\n1. Response A\n2. Response B"

/-- Ranker text listing A twice (duplicate labels are kept). -/
def rkAA : String := "FINAL RANKING:\n1. Response A\n2. Response A"

/-- Ranker text listing only A. -/
def rkA : String := "FINAL RANKING:\n1. Response A"

/-- Three rankers giving model `mA` the positions 1, 1, 2: its exact mean
4/3 is not a two-decimal value (claim C3's counterexample input). -/
def meanStage2 : List Stage2Result :=
  [⟨"r1", rkAB, parse_ranking_from_text rkAB⟩,
   ⟨"r2", rkAB, parse_ranking_from_text rkAB⟩,
   ⟨"r3", rkBA, parse_ranking_from_text rkBA⟩]

/-- Thirty-one rankers giving model `mA` the exact mean 57/43 and model
`mB` the exact mean 4/3: the means differ but both round to 1.33, and
`mB` is encountered first (claim C4's counterexample input). -/
def roundingStage2 : List Stage2Result :=
  [⟨"r1", rkBA, parse_ranking_from_text rkBA⟩,
   ⟨"r2", rkBA, parse_ranking_from_text rkBA⟩,
   ⟨"r3", rkAB, parse_ranking_from_text rkAB⟩]
    ++ List.replicate 12 ⟨"rx", rkAA, parse_ranking_from_text rkAA⟩
    ++ List.replicate 16 ⟨"ry", rkA, parse_ranking_from_text rkA⟩

/-- An oracle on which every model call fails. -/
def failedOracle : Oracle :=
  ⟨fun _ => none, fun _ => none, none⟩

/-- A title-model response whose stripped content has 60 characters. -/
def longContent : String :=
  "  \"aaaaaaaaaaaaaaaaaaaaaaaaaaaaaaaaaaaaaaaaaaaaaaaaaaaaaaaaaaaa\"  "

/-! ### Parser lemmas -/

lemma isUpperAZ_iff {c : Char} : isUpperAZ c = true ↔ 'A' ≤ c ∧ c ≤ 'Z' := by
  simp [isUpperAZ]

lemma tryBare_eq_some {s : List Char} {c : Char} {rest : List Char}
    (h : tryBare s = some (c, rest)) :
    isUpperAZ c = true ∧ s.length = rest.length + 10 := by
  unfold tryBare at h
  split at h
  · split at h
    · rename_i hup
      obtain ⟨rfl, rfl⟩ : _ ∧ _ := by simpa using h
      exact ⟨hup, by simp⟩
    · simp at h
  · simp at h

lemma tryNumbered_eq_some {s : List Char} {c : Char} {rest : List Char}
    (h : tryNumbered s = some (c, rest)) :
    isUpperAZ c = true ∧ rest.length < s.length := by
  unfold tryNumbered at h
  split at h
  · rename_i c0 rest1
    split at h
    · split at h
      · rename_i rest2 heq
        obtain ⟨hup, hlen⟩ := tryBare_eq_some h
        refine ⟨hup, ?_⟩
        have h1 : (rest2.dropWhile isSpaceChar).length ≤ rest2.length :=
          (List.dropWhile_sublist _).length_le
        have h2 : (rest1.dropWhile Char.isDigit).length ≤ rest1.length :=
          (List.dropWhile_sublist _).length_le
        rw [heq] at h2
        simp only [List.length_cons] at *
        omega
      · simp at h
    · simp at h
  · simp at h

lemma scanBare_nil (fuel : Nat) : scanBare fuel [] = [] := by
  cases fuel <;> rfl

lemma scanNumbered_nil (fuel : Nat) : scanNumbered fuel [] = [] := by
  cases fuel <;> rfl

/-- The fuel of `scanBare` is irrelevant once it reaches the input length:
each step consumes at least one character. -/
lemma scanBare_fuel : ∀ (fuel : Nat) (s : List Char), s.length ≤ fuel →
    scanBare fuel s = findAllBare s := by
  intro fuel
  induction fuel using Nat.strong_induction_on with
  | _ fuel ih =>
    intro s hs
    match fuel, s with
    | 0, s =>
      have : s = [] := List.length_eq_zero.mp (Nat.le_zero.mp hs)
      subst this
      rfl
    | fuel + 1, [] => simp [scanBare_nil, findAllBare]
    | fuel + 1, c :: cs =>
      simp only [List.length_cons] at hs
      cases htb : tryBare (c :: cs) with
      | some pr =>
        obtain ⟨x, rest⟩ := pr
        have hlen := (tryBare_eq_some htb).2
        simp only [List.length_cons] at hlen
        have hr1 : rest.length ≤ fuel := by omega
        have hr2 : rest.length ≤ cs.length := by omega
        simp only [findAllBare, List.length_cons, scanBare, htb]
        rw [ih fuel (Nat.lt_succ_self _) rest hr1,
          ih cs.length (by omega) rest hr2]
      | none =>
        simp only [findAllBare, List.length_cons, scanBare, htb]
        rw [ih fuel (Nat.lt_succ_self _) cs (by omega),
          ih cs.length (by omega) cs (Nat.le_refl _)]

/-- The fuel of `scanNumbered` is irrelevant once it reaches the input
length. -/
lemma scanNumbered_fuel : ∀ (fuel : Nat) (s : List Char), s.length ≤ fuel →
    scanNumbered fuel s = findAllNumbered s := by
  intro fuel
  induction fuel using Nat.strong_induction_on with
  | _ fuel ih =>
    intro s hs
    match fuel, s with
    | 0, s =>
      have : s = [] := List.length_eq_zero.mp (Nat.le_zero.mp hs)
      subst this
      rfl
    | fuel + 1, [] => simp [scanNumbered_nil, findAllNumbered]
    | fuel + 1, c :: cs =>
      simp only [List.length_cons] at hs
      cases htb : tryNumbered (c :: cs) with
      | some pr =>
        obtain ⟨x, rest⟩ := pr
        have hlen := (tryNumbered_eq_some htb).2
        simp only [List.length_cons] at hlen
        have hr1 : rest.length ≤ fuel := by omega
        have hr2 : rest.length ≤ cs.length := by omega
        simp only [findAllNumbered, List.length_cons, scanNumbered, htb]
        rw [ih fuel (Nat.lt_succ_self _) rest hr1,
          ih cs.length (by omega) rest hr2]
      | none =>
        simp only [findAllNumbered, List.length_cons, scanNumbered, htb]
        rw [ih fuel (Nat.lt_succ_self _) cs (by omega),
          ih cs.length (by omega) cs (Nat.le_refl _)]

/-- Every label produced by the bare scan is `"Response X"` for a capital
letter `X`. -/
lemma mem_scanBare : ∀ {fuel : Nat} {s : List Char} {lab : String},
    lab ∈ scanBare fuel s →
    ∃ c, ('A' ≤ c ∧ c ≤ 'Z') ∧ lab = bareLabel c := by
  intro fuel
  induction fuel with
  | zero => intro s lab h; simp [scanBare] at h
  | succ fuel ih =>
    intro s lab h
    match s with
    | [] => simp [scanBare] at h
    | c :: cs =>
      cases htb : tryBare (c :: cs) with
      | some pr =>
        obtain ⟨x, rest⟩ := pr
        simp only [scanBare, htb, List.mem_cons] at h
        rcases h with h | h
        · exact ⟨x, isUpperAZ_iff.mp (tryBare_eq_some htb).1, h⟩
        · exact ih h
      | none =>
        simp only [scanBare, htb] at h
        exact ih h

/-- Every label produced by the numbered scan is `"Response X"` for a
capital letter `X`. -/
lemma mem_scanNumbered : ∀ {fuel : Nat} {s : List Char} {lab : String},
    lab ∈ scanNumbered fuel s →
    ∃ c, ('A' ≤ c ∧ c ≤ 'Z') ∧ lab = bareLabel c := by
  intro fuel
  induction fuel with
  | zero => intro s lab h; simp [scanNumbered] at h
  | succ fuel ih =>
    intro s lab h
    match s with
    | [] => simp [scanNumbered] at h
    | c :: cs =>
      cases htb : tryNumbered (c :: cs) with
      | some pr =>
        obtain ⟨x, rest⟩ := pr
        simp only [scanNumbered, htb, List.mem_cons] at h
        rcases h with h | h
        · exact ⟨x, isUpperAZ_iff.mp (tryNumbered_eq_some htb).1, h⟩
        · exact ih h
      | none =>
        simp only [scanNumbered, htb] at h
        exact ih h

/-- Decomposition of a text at the first marker occurrence: when the marker
occurs, the text is the marker-free-scanned prefix, the marker, and the
remainder; when it does not, `untilMarker` is the whole text. -/
lemma marker_decomp : ∀ s : List Char,
    (hasMarker s = true → s = untilMarker s ++ marker ++ afterMarker s) ∧
    (hasMarker s = false → untilMarker s = s) := by
  intro s
  induction s with
  | nil => exact ⟨by simp [hasMarker], fun _ => rfl⟩
  | cons c cs ih =>
    by_cases hp : marker.isPrefixOf (c :: cs)
    · refine ⟨fun _ => ?_, fun hf => ?_⟩
      · obtain ⟨t, ht⟩ : marker <+: (c :: cs) := List.isPrefixOf_iff_prefix.mp hp
        simp only [untilMarker, hp, if_true, afterMarker, List.nil_append]
        rw [← ht, List.drop_left]
      · simp [hasMarker, hp] at hf
    · have hhm : hasMarker (c :: cs) = hasMarker cs := by
        simp [hasMarker, hp]
      refine ⟨fun htr => ?_, fun hf => ?_⟩
      · rw [hhm] at htr
        simp only [untilMarker, afterMarker, hp, Bool.false_eq_true, if_false,
          List.cons_append]
        rw [← (ih.1 htr)]
      · rw [hhm] at hf
        simp only [untilMarker, hp, Bool.false_eq_true, if_false]
        rw [ih.2 hf]


/-! ### Aggregator lemmas -/

lemma lookupL_addPosition (mps : List (String × List Nat)) (m : String) (p : Nat)
    (key : String) :
    lookupL (addPosition mps m p) key =
      if key = m then some (((lookupL mps m).getD []) ++ [p])
      else lookupL mps key := by
  induction mps with
  | nil =>
    by_cases h : key = m
    · subst h; simp [addPosition, lookupL]
    · simp [addPosition, lookupL, h, Ne.symm h]
  | cons hd tl ih =>
    obtain ⟨k, ps⟩ := hd
    by_cases hkm : k = m
    · subst hkm
      by_cases hk : key = k
      · subst hk; simp [addPosition, lookupL]
      · simp [addPosition, lookupL, hk, Ne.symm hk]
    · by_cases hk : k = key
      · subst hk
        simp [addPosition, lookupL, hkm, Ne.symm hkm]
      · simp [addPosition, lookupL, hkm, hk, ih]

lemma keysOf_addPosition (mps : List (String × List Nat)) (m : String) (p : Nat) :
    keysOf (addPosition mps m p) =
      if m ∈ keysOf mps then keysOf mps else keysOf mps ++ [m] := by
  induction mps with
  | nil => simp [addPosition, keysOf]
  | cons hd tl ih =>
    obtain ⟨k, ps⟩ := hd
    by_cases hkm : k = m
    · subst hkm; simp [addPosition, keysOf]
    · have h1 : addPosition ((k, ps) :: tl) m p = (k, ps) :: addPosition tl m p := by
        simp [addPosition, hkm]
      have hne : m ≠ k := Ne.symm hkm
      rw [h1]
      show k :: keysOf (addPosition tl m p) = _
      rw [ih]
      by_cases hmem : m ∈ keysOf tl
      · have hmem' : m ∈ keysOf ((k, ps) :: tl) := List.mem_cons_of_mem _ hmem
        simp only [if_pos hmem, if_pos hmem']
        rfl
      · have hmem' : m ∉ keysOf ((k, ps) :: tl) := by
          intro hc
          rcases List.mem_cons.mp hc with h | h
          · exact hne h
          · exact hmem h
        simp only [if_neg hmem, if_neg hmem']
        rfl

lemma nodup_keysOf_addPosition {mps : List (String × List Nat)} (m : String) (p : Nat)
    (h : (keysOf mps).Nodup) : (keysOf (addPosition mps m p)).Nodup := by
  rw [keysOf_addPosition]
  by_cases hmem : m ∈ keysOf mps
  · simpa [hmem]
  · simp only [hmem, if_false]
    simpa [List.nodup_append] using ⟨h, hmem⟩

lemma nodup_keysOf_recordLabels (ltm : List (String × String)) :
    ∀ (labs : List String) (mps : List (String × List Nat)) (pos : Nat),
    (keysOf mps).Nodup → (keysOf (recordLabels ltm mps pos labs)).Nodup := by
  intro labs
  induction labs with
  | nil => intro mps pos h; exact h
  | cons lab rest ih =>
    intro mps pos h
    cases hm : lookupL ltm lab with
    | some m =>
      simp only [recordLabels, hm]
      exact ih _ _ (nodup_keysOf_addPosition m pos h)
    | none =>
      simp only [recordLabels, hm]
      exact ih _ _ h

lemma nodup_keysOf_buildPositions (stage2 : List Stage2Result)
    (ltm : List (String × String)) : (keysOf (buildPositions stage2 ltm)).Nodup := by
  suffices h : ∀ (l : List Stage2Result) (acc : List (String × List Nat)),
      (keysOf acc).Nodup →
      (keysOf (l.foldl (fun mps r =>
        recordLabels ltm mps 1 (parse_ranking_from_text r.ranking)) acc)).Nodup by
    exact h stage2 [] (by simp [keysOf])
  intro l
  induction l with
  | nil => intro acc h; exact h
  | cons r rest ih =>
    intro acc h
    exact ih _ (nodup_keysOf_recordLabels ltm _ acc 1 h)

lemma lookupL_eq_some_of_mem {α : Type} {mps : List (String × α)} {k : String} {v : α}
    (hnd : (mps.map Prod.fst).Nodup) (hm : (k, v) ∈ mps) : lookupL mps k = some v := by
  induction mps with
  | nil => simp at hm
  | cons hd tl ih =>
    obtain ⟨k', v'⟩ := hd
    simp only [List.map_cons, List.nodup_cons] at hnd
    rcases List.mem_cons.mp hm with h | h
    · obtain ⟨rfl, rfl⟩ : k' = k ∧ v' = v := by simpa using h.symm
      simp [lookupL]
    · have hk : k' ≠ k := by
        intro hh
        subst hh
        exact hnd.1 (List.mem_map.mpr ⟨(k', v), h, rfl⟩)
      simp [lookupL, hk, ih hnd.2 h]

lemma mem_of_lookupL_eq_some {α : Type} {mps : List (String × α)} {k : String} {v : α}
    (h : lookupL mps k = some v) : (k, v) ∈ mps := by
  induction mps with
  | nil => simp [lookupL] at h
  | cons hd tl ih =>
    obtain ⟨k', v'⟩ := hd
    by_cases hk : k' = k
    · subst hk
      simp only [lookupL, if_pos] at h
      obtain rfl : v' = v := by simpa using h
      exact List.mem_cons_self _ _
    · simp only [lookupL, if_neg hk] at h
      exact List.mem_cons_of_mem _ (ih h)

lemma lookupL_recordLabels (ltm : List (String × String)) :
    ∀ (labs : List String) (mps : List (String × List Nat)) (pos : Nat) (key : String),
    lookupL (recordLabels ltm mps pos labs) key =
      match lookupL mps key with
      | some qs => some (qs ++ posOf ltm key pos labs)
      | none =>
        if posOf ltm key pos labs = [] then none
        else some (posOf ltm key pos labs) := by
  intro labs
  induction labs with
  | nil =>
    intro mps pos key
    cases h : lookupL mps key <;> simp [recordLabels, posOf, h]
  | cons lab rest ih =>
    intro mps pos key
    cases hm : lookupL ltm lab with
    | some m =>
      simp only [recordLabels, hm]
      rw [ih]
      rw [lookupL_addPosition]
      by_cases hkey : key = m
      · subst hkey
        simp only [if_pos rfl, posOf, hm, if_pos rfl]
        cases h : lookupL mps key <;> simp [h, List.append_assoc]
      · have : ¬(lookupL ltm lab = some key) := by
          rw [hm]; intro hc; exact hkey (by simpa using hc.symm)
        simp only [if_neg hkey, posOf, if_neg this]
    | none =>
      have : ¬(lookupL ltm lab = some key) := by rw [hm]; intro hc; cases hc
      simp only [recordLabels, hm]
      rw [ih]
      simp only [posOf, if_neg this]

lemma lookupL_buildPositions (stage2 : List Stage2Result)
    (ltm : List (String × String)) (key : String) :
    lookupL (buildPositions stage2 ltm) key =
      if specPositions stage2 ltm key = [] then none
      else some (specPositions stage2 ltm key) := by
  suffices h : ∀ (l : List Stage2Result) (acc : List (String × List Nat)),
      lookupL (l.foldl (fun mps r =>
          recordLabels ltm mps 1 (parse_ranking_from_text r.ranking)) acc) key =
        match lookupL acc key with
        | some qs => some (qs ++ specPositions l ltm key)
        | none =>
          if specPositions l ltm key = [] then none
          else some (specPositions l ltm key) by
    rw [buildPositions, h stage2 []]
    simp [lookupL]
  intro l
  induction l with
  | nil =>
    intro acc
    cases h : lookupL acc key <;> simp [specPositions, h]
  | cons r rest ih =>
    intro acc
    have hspec : specPositions (r :: rest) ltm key =
        posOf ltm key 1 (parse_ranking_from_text r.ranking) ++
          specPositions rest ltm key := by
      simp [specPositions]
    simp only [List.foldl_cons]
    rw [ih, lookupL_recordLabels, hspec]
    cases h : lookupL acc key with
    | some qs =>
      simp [List.append_assoc]
    | none =>
      by_cases hp : posOf ltm key 1 (parse_ranking_from_text r.ranking) = []
      · simp [hp]
      · simp [hp]

/-- The integer rounding used for the stored hundredths agrees with
round-half-to-even on the exact rational quotient. -/
lemma roundHalfEvenDiv_eq_roundQ (a b : Nat) (hb : 0 < b) :
    (roundHalfEvenDiv a b : ℤ) = roundHalfEvenQ ((a : ℚ) / (b : ℚ)) := by
  have hb0 : (0 : ℚ) < (b : ℚ) := by exact_mod_cast hb
  have hab : (a : ℚ) = (b : ℚ) * ((a / b : Nat) : ℚ) + ((a % b : Nat) : ℚ) := by
    exact_mod_cast (Nat.div_add_mod a b).symm
  have hr : ((a % b : Nat) : ℚ) < (b : ℚ) := by exact_mod_cast Nat.mod_lt a hb
  have hr0 : (0 : ℚ) ≤ ((a % b : Nat) : ℚ) := Nat.cast_nonneg _
  have hfloor : ⌊(a : ℚ) / (b : ℚ)⌋ = ((a / b : Nat) : ℤ) := by
    rw [Int.floor_eq_iff]
    constructor
    · rw [le_div_iff₀ hb0]
      exact_mod_cast Nat.div_mul_le_self a b
    · rw [div_lt_iff₀ hb0]
      have hnat : a < (a / b + 1) * b := by
        have h1 := Nat.div_add_mod a b
        have h2 := Nat.mod_lt a hb
        nlinarith
      exact_mod_cast hnat
  have hfrac : (a : ℚ) / (b : ℚ) - ((a / b : Nat) : ℚ) =
      ((a % b : Nat) : ℚ) / (b : ℚ) := by
    field_simp
    linarith [hab]
  have hc1 : (((a % b : Nat) : ℚ) / (b : ℚ) < 1 / 2) ↔ 2 * (a % b) < b := by
    rw [div_lt_div_iff₀ hb0 (by norm_num : (0 : ℚ) < 2)]
    constructor <;> intro h
    · exact_mod_cast (by linarith : (2 : ℚ) * ((a % b : Nat) : ℚ) < (b : ℚ))
    · have : (2 : ℚ) * ((a % b : Nat) : ℚ) < (b : ℚ) := by exact_mod_cast h
      linarith
  have hc2 : ((1 : ℚ) / 2 < ((a % b : Nat) : ℚ) / (b : ℚ)) ↔ b < 2 * (a % b) := by
    rw [div_lt_div_iff₀ (by norm_num : (0 : ℚ) < 2) hb0]
    constructor <;> intro h
    · exact_mod_cast (by linarith : (b : ℚ) < 2 * ((a % b : Nat) : ℚ))
    · have : (b : ℚ) < 2 * ((a % b : Nat) : ℚ) := by exact_mod_cast h
      linarith
  simp only [roundHalfEvenQ, hfloor, roundHalfEvenDiv]
  rw [show (((a / b : Nat) : ℤ) : ℚ) = ((a / b : Nat) : ℚ) by push_cast; rfl]
  rw [hfrac]
  by_cases h1 : 2 * (a % b) < b
  · rw [if_pos (hc1.mpr h1), if_pos h1]
  · rw [if_neg (fun hq => h1 (hc1.mp hq)), if_neg h1]
    by_cases h2 : b < 2 * (a % b)
    · rw [if_pos (hc2.mpr h2), if_pos h2]
      push_cast
      ring
    · rw [if_neg (fun hq => h2 (hc2.mp hq)), if_neg h2]
      by_cases h3 : (a / b) % 2 = 0
      · rw [if_pos h3, if_pos (by omega : ((a / b : Nat) : ℤ) % 2 = 0)]
      · rw [if_neg h3, if_neg (by omega : ¬ ((a / b : Nat) : ℤ) % 2 = 0)]
        push_cast
        ring

/-- The stored hundredths are exactly the 2-decimal rounding of the exact
arithmetic mean of the recorded positions. -/
lemma avgHundredths_eq_round2Q {ps : List Nat} (h : ps ≠ []) :
    (avgHundredths ps : ℚ) / 100 = round2Q (Qmean ps) := by
  have hlen : 0 < ps.length := List.length_pos.mpr h
  have h1 : (100 : ℚ) * Qmean ps = ((100 * ps.sum : ℕ) : ℚ) / (ps.length : ℚ) := by
    rw [Qmean]
    push_cast
    ring
  rw [round2Q, h1, avgHundredths, ← roundHalfEvenDiv_eq_roundQ _ _ hlen]
  push_cast
  ring

lemma mem_aggregateOf {e : AggregateEntry} {mps : List (String × List Nat)} :
    e ∈ aggregateOf mps ↔
      ∃ k ps, (k, ps) ∈ mps ∧ ps ≠ [] ∧ e = ⟨k, avgHundredths ps, ps.length⟩ := by
  rw [aggregateOf, List.mem_filterMap]
  constructor
  · rintro ⟨⟨k, ps⟩, hmem, hsome⟩
    by_cases hps : ps = []
    · simp [hps] at hsome
    · refine ⟨k, ps, hmem, hps, ?_⟩
      simp only [if_neg hps, Option.some.injEq] at hsome
      exact hsome.symm
  · rintro ⟨k, ps, hmem, hps, rfl⟩
    exact ⟨(k, ps), hmem, by simp [hps]⟩

lemma mem_calculate_iff {e : AggregateEntry} {s2 : List Stage2Result}
    {ltm : List (String × String)} :
    e ∈ calculate_aggregate_rankings s2 ltm ↔ e ∈ aggregateUnsorted s2 ltm :=
  (List.perm_insertionSort aggLE _).mem_iff

/-- Inserting into the stable sort: the elements of any fixed key class keep
their relative order, with the inserted element (which comes earlier in the
input) in front of its class. -/
lemma filter_orderedInsert (v : Nat) (a : AggregateEntry) (l : List AggregateEntry) :
    (List.orderedInsert aggLE a l).filter (fun e => e.average_rank == v) =
      if a.average_rank = v
      then a :: l.filter (fun e => e.average_rank == v)
      else l.filter (fun e => e.average_rank == v) := by
  induction l with
  | nil => by_cases h : a.average_rank = v <;> simp [List.orderedInsert, h]
  | cons b bs ih =>
    by_cases hab : aggLE a b
    · rw [List.orderedInsert_of_le _ _ hab]
      by_cases h : a.average_rank = v <;> simp [List.filter_cons, h]
    · have hoi : List.orderedInsert aggLE a (b :: bs) =
          b :: List.orderedInsert aggLE a bs := by
        simp [List.orderedInsert, hab]
      rw [hoi]
      by_cases h : a.average_rank = v
      · have hba : b.average_rank < a.average_rank :=
          Nat.lt_of_not_le fun hle => hab hle
        have hbv : ¬ b.average_rank = v := by omega
        simp [List.filter_cons, hbv, ih, h]
      · simp [List.filter_cons, ih, h]

/-- Stability of the sort: within each class of equal sort keys, the sorted
list keeps the input order. -/
lemma filter_insertionSort (v : Nat) (l : List AggregateEntry) :
    (List.insertionSort aggLE l).filter (fun e => e.average_rank == v) =
      l.filter (fun e => e.average_rank == v) := by
  induction l with
  | nil => rfl
  | cons a l ih =>
    show (List.orderedInsert aggLE a (List.insertionSort aggLE l)).filter _ = _
    rw [filter_orderedInsert]
    by_cases h : a.average_rank = v
    · simp [List.filter_cons, h, ih]
    · simp [List.filter_cons, h, ih]

/-! ### Labelling lemmas -/

lemma nodup_labelsList {n : Nat} (h : n ≤ 26) : (labelsList n).Nodup := by
  have hsub : (labelsList n).Sublist (labelsList 26) :=
    List.Sublist.map _ (List.range_sublist.mpr h)
  exact (by decide : (labelsList 26).Nodup).sublist hsub

lemma labelChar_bounds : ∀ i, i < 26 →
    'A' ≤ Char.ofNat (65 + i) ∧ Char.ofNat (65 + i) ≤ 'Z' := by
  decide

/-- The `map fst` of the label map is the label list. -/
lemma label_to_model_fst (results : List Stage1Result) :
    (label_to_model results).map Prod.fst = labelsList results.length := by
  have hfst : List.map Prod.fst ((List.range results.length).zip results) =
      List.range results.length :=
    List.map_fst_zip _ _ (by simp)
  calc (label_to_model results).map Prod.fst
      = List.map (labelStr ∘ Prod.fst) ((List.range results.length).zip results) := by
        simp [label_to_model, List.map_map]
    _ = List.map labelStr
          (List.map Prod.fst ((List.range results.length).zip results)) := by
        rw [List.map_map]
    _ = labelsList results.length := by rw [hfst]; rfl

/-- The `map snd` of the label map is the model list. -/
lemma label_to_model_snd (results : List Stage1Result) :
    (label_to_model results).map Prod.snd = results.map Stage1Result.model := by
  have hsnd : List.map Prod.snd ((List.range results.length).zip results) = results :=
    List.map_snd_zip _ _ (by simp)
  calc (label_to_model results).map Prod.snd
      = List.map (Stage1Result.model ∘ Prod.snd)
          ((List.range results.length).zip results) := by
        simp [label_to_model, List.map_map]
    _ = List.map Stage1Result.model
          (List.map Prod.snd ((List.range results.length).zip results)) := by
        rw [List.map_map]
    _ = results.map Stage1Result.model := by rw [hsnd]

/-- Stage 1 output always satisfies the hypotheses of the labelling claim:
at most 26 results (the council has 2 members) and pairwise distinct models
(the response map has one entry per queried model). -/
lemma stage1_wf (o : Oracle) :
    (stage1_collect_responses o).length ≤ 26 ∧
    ((stage1_collect_responses o).map Stage1Result.model).Nodup := by
  have hsub : ∀ l : List String,
      (((l.map fun m => (m, o.stage1Response m)).filterMap fun p =>
        p.2.map fun c => (⟨p.1, c⟩ : Stage1Result)).map Stage1Result.model).Sublist l := by
    intro l
    induction l with
    | nil => simp
    | cons m ms ih =>
      cases h : o.stage1Response m with
      | none => simpa [h] using ih.cons m
      | some c => simpa [h] using ih.cons₂ m
  constructor
  · have h1 := (hsub COUNCIL_MODELS).length_le
    have h2 : ((stage1_collect_responses o).map Stage1Result.model).length =
        (stage1_collect_responses o).length := List.length_map _ _
    have h3 : COUNCIL_MODELS.length = 2 := rfl
    simp only [stage1_collect_responses, query_models_parallel] at *
    omega
  · exact (by decide : COUNCIL_MODELS.Nodup).sublist (hsub COUNCIL_MODELS)

lemma strLength_mk (l : List Char) : (⟨l⟩ : String).length = l.length :=
  rfl

/-! ### Claim theorems -/

/-- C1, counterexample: on a text with two marker occurrences the function
returns only the labels between the two occurrences, while scanning the
whole remainder after the first occurrence (what the claim asserts) would
also find `Response B`; so the claim as stated is false. -/
theorem C1_counterexample :
    parse_ranking_from_text twoMarkerText = ["Response A"] ∧
    parseWholeRemainder twoMarkerText.toList = ["Response A", "Response B"] ∧
    parse_ranking_from_text twoMarkerText ≠ parseWholeRemainder twoMarkerText.toList := by
  refine ⟨by decide, by decide, by decide⟩

/-- C1, amended: for every text containing the marker, labels are extracted
from the segment strictly after the first occurrence and strictly before
the next occurrence of the marker (the whole remainder when the marker does
not occur again); content after a second occurrence is ignored. -/
theorem C1_theorem (s : String) (h : hasMarker s.toList = true) :
    parse_ranking_from_text s = parseRegion (untilMarker (afterMarker s.toList)) ∧
    (hasMarker (afterMarker s.toList) = true →
      afterMarker s.toList =
        untilMarker (afterMarker s.toList) ++ marker ++
          afterMarker (afterMarker s.toList)) ∧
    (hasMarker (afterMarker s.toList) = false →
      untilMarker (afterMarker s.toList) = afterMarker s.toList) := by
  refine ⟨?_, (marker_decomp _).1, (marker_decomp _).2⟩
  have h' : hasMarker s.data = true := h
  simp [parse_ranking_from_text, parseRanking, h']

/-- C1, witness for the amended claim at a concrete marker text. -/
theorem C1_witness :
    parse_ranking_from_text twoMarkerText =
      parseRegion (untilMarker (afterMarker twoMarkerText.toList)) ∧
    (hasMarker (afterMarker twoMarkerText.toList) = true →
      afterMarker twoMarkerText.toList =
        untilMarker (afterMarker twoMarkerText.toList) ++ marker ++
          afterMarker (afterMarker twoMarkerText.toList)) ∧
    (hasMarker (afterMarker twoMarkerText.toList) = false →
      untilMarker (afterMarker twoMarkerText.toList) = afterMarker twoMarkerText.toList) :=
  C1_theorem twoMarkerText (by decide)

/-- C2: when Stage 1 yields zero successful results, `run_full_council`
returns empty Stage 1 and Stage 2 lists, the fixed error Stage 3 payload,
empty metadata, and issues zero model queries after Stage 1. -/
theorem C2_theorem (o : Oracle) (h : stage1_collect_responses o = []) :
    run_full_council o =
      ⟨[], [], ⟨"error", "All models failed to respond. Please try again."⟩,
        none, 0⟩ := by
  simp [run_full_council, h]

/-- C2, witness: the all-failing oracle. -/
theorem C2_witness :
    run_full_council failedOracle =
      ⟨[], [], ⟨"error", "All models failed to respond. Please try again."⟩,
        none, 0⟩ :=
  C2_theorem failedOracle (by rfl)

/-- C5: the parser's fallback chain is exactly: numbered matches in the
marker region, else bare matches in the marker region, else (marker absent)
bare matches in the whole raw text; duplicate labels are preserved. -/
theorem C5_theorem (s : String) :
    (hasMarker s.toList = true →
      findAllNumbered (untilMarker (afterMarker s.toList)) ≠ [] →
      parse_ranking_from_text s =
        findAllNumbered (untilMarker (afterMarker s.toList))) ∧
    (hasMarker s.toList = true →
      findAllNumbered (untilMarker (afterMarker s.toList)) = [] →
      parse_ranking_from_text s = findAllBare (untilMarker (afterMarker s.toList))) ∧
    (hasMarker s.toList = false → parse_ranking_from_text s = findAllBare s.toList) ∧
    parse_ranking_from_text "Rankings: Response B Response B Response A" =
      ["Response B", "Response B", "Response A"] := by
  refine ⟨fun h hn => ?_, fun h hn => ?_, fun h => ?_, by decide⟩
  · have h' : hasMarker s.data = true := h
    have hn' : findAllNumbered (untilMarker (afterMarker s.data)) ≠ [] := hn
    simp [parse_ranking_from_text, parseRanking, parseRegion,
      List.isEmpty_iff, h', hn']
  · have h' : hasMarker s.data = true := h
    have hn' : findAllNumbered (untilMarker (afterMarker s.data)) = [] := hn
    simp [parse_ranking_from_text, parseRanking, parseRegion,
      List.isEmpty_iff, h', hn']
  · have h' : hasMarker s.data = false := h
    simp [parse_ranking_from_text, parseRanking, h']

/-- C5, witness: the numbered branch at a concrete text. -/
theorem C5_witness :
    parse_ranking_from_text roundTripText =
      findAllNumbered (untilMarker (afterMarker roundTripText.toList)) :=
  (C5_theorem roundTripText).1 (by decide) (by decide)

/-- C7: the parser is a total function (it is defined for every string) and
every label it returns is `"Response X"` for a capital letter `X`; on the
empty string it returns the empty sequence. -/
theorem C7_theorem :
    (∀ s : String, ∀ lab ∈ parse_ranking_from_text s,
      ∃ c, ('A' ≤ c ∧ c ≤ 'Z') ∧ lab = bareLabel c) ∧
    parse_ranking_from_text "" = [] := by
  refine ⟨fun s lab h => ?_, by decide⟩
  unfold parse_ranking_from_text parseRanking at h
  by_cases hm : hasMarker s.toList
  · rw [if_pos hm] at h
    simp only [parseRegion] at h
    by_cases he : (findAllNumbered (untilMarker (afterMarker s.toList))).isEmpty
    · rw [if_pos he] at h
      exact mem_scanBare h
    · rw [if_neg he] at h
      exact mem_scanNumbered h
  · rw [if_neg hm] at h
    exact mem_scanBare h

/-- C7, witness: a concrete parsed label has the required shape. -/
theorem C7_witness :
    ∃ c, ('A' ≤ c ∧ c ≤ 'Z') ∧ "Response B" = bareLabel c :=
  C7_theorem.1 roundTripText "Response B" (by decide)

/-- C8: round-trip at the concrete text whose tail is the marker followed
by `1. Response B` and `2. Response A`: the parse is `[B, A]` and the
aggregate puts the model behind B (average rank 1.00, stored as 100
hundredths) above the model behind A (average rank 2.00). -/
theorem C8_theorem :
    parse_ranking_from_text roundTripText = ["Response B", "Response A"] ∧
    calculate_aggregate_rankings
        [⟨"ranker", roundTripText, parse_ranking_from_text roundTripText⟩]
        (label_to_model s1pair) =
      [⟨"mB", 100, 1⟩, ⟨"mA", 200, 1⟩] ∧
    ((100 : ℚ) / 100 = 1 ∧ (200 : ℚ) / 100 = 2) := by
  refine ⟨by decide, by decide, by norm_num⟩

/-- C3, counterexample: the stored `average_rank` is not the arithmetic
mean of the recorded positions: model `mA` has positions 1, 1, 2 with mean
4/3, but the stored value is 1.33 (133 hundredths), and 133/100 is not
4/3. -/
theorem C3_counterexample :
    calculate_aggregate_rankings meanStage2 (label_to_model s1pair) =
      [⟨"mA", 133, 3⟩, ⟨"mB", 167, 3⟩] ∧
    specPositions meanStage2 (label_to_model s1pair) "mA" = [1, 1, 2] ∧
    ((133 : ℚ) / 100 ≠ Qmean [1, 1, 2]) := by
  refine ⟨by decide, by decide, ?_⟩
  rw [Qmean]
  norm_num

/-- C3, amended: every output entry's positions are exactly those recorded
by walking each ranker's parsed ranking in order (1-based, counted with
multiplicity for duplicated labels); `rankings_count` is their number,
`average_rank` is their arithmetic mean rounded to two decimal digits
(half-to-even), and a model appears in the output iff some ranker mentioned
a label mapped to it. -/
theorem C3_theorem (s2 : List Stage2Result) (ltm : List (String × String)) :
    (∀ e ∈ calculate_aggregate_rankings s2 ltm,
      specPositions s2 ltm e.model ≠ [] ∧
      e.rankings_count = (specPositions s2 ltm e.model).length ∧
      (e.average_rank : ℚ) / 100 = round2Q (Qmean (specPositions s2 ltm e.model))) ∧
    (∀ m : String,
      m ∈ (calculate_aggregate_rankings s2 ltm).map AggregateEntry.model ↔
        specPositions s2 ltm m ≠ []) := by
  have hnd := nodup_keysOf_buildPositions s2 ltm
  constructor
  · intro e he
    obtain ⟨k, ps, hmem, hps, rfl⟩ := mem_aggregateOf.mp (mem_calculate_iff.mp he)
    have hlk : lookupL (buildPositions s2 ltm) k = some ps :=
      lookupL_eq_some_of_mem hnd hmem
    rw [lookupL_buildPositions] at hlk
    by_cases hsp : specPositions s2 ltm k = []
    · rw [if_pos hsp] at hlk; cases hlk
    · rw [if_neg hsp] at hlk
      obtain rfl : ps = specPositions s2 ltm k := by
        injection hlk with hh
        exact hh.symm
      exact ⟨hsp, rfl, avgHundredths_eq_round2Q hps⟩
  · intro m
    constructor
    · intro hmm
      obtain ⟨e, he, rfl⟩ := List.mem_map.mp hmm
      obtain ⟨k, ps, hmem, hps, rfl⟩ := mem_aggregateOf.mp (mem_calculate_iff.mp he)
      have hlk : lookupL (buildPositions s2 ltm) k = some ps :=
        lookupL_eq_some_of_mem hnd hmem
      rw [lookupL_buildPositions] at hlk
      by_cases hsp : specPositions s2 ltm k = []
      · rw [if_pos hsp] at hlk; cases hlk
      · exact hsp
    · intro hsp
      have hlk : lookupL (buildPositions s2 ltm) m =
          some (specPositions s2 ltm m) := by
        rw [lookupL_buildPositions, if_neg hsp]
      have hmem := mem_of_lookupL_eq_some hlk
      have he : (⟨m, avgHundredths (specPositions s2 ltm m),
          (specPositions s2 ltm m).length⟩ : AggregateEntry) ∈
          calculate_aggregate_rankings s2 ltm :=
        mem_calculate_iff.mpr (mem_aggregateOf.mpr ⟨m, _, hmem, hsp, rfl⟩)
      exact List.mem_map.mpr ⟨_, he, rfl⟩

/-- C3, witness for the amended claim: the `mA` entry of the concrete
three-ranker aggregate. -/
theorem C3_witness :
    specPositions meanStage2 (label_to_model s1pair) "mA" ≠ [] ∧
    3 = (specPositions meanStage2 (label_to_model s1pair) "mA").length ∧
    ((133 : ℕ) : ℚ) / 100 =
      round2Q (Qmean (specPositions meanStage2 (label_to_model s1pair) "mA")) :=
  (C3_theorem meanStage2 (label_to_model s1pair)).1 ⟨"mA", 133, 3⟩ (by decide)

/-- C4, counterexample: the sort key is the rounded average, not the exact
one: model `mA` has the strictly smaller exact mean (57/43 < 4/3) yet is
listed after `mB`, because both means round to 1.33 and `mB` was
encountered first; so rounding does change the relative order of models
whose true averages differ, and the output is not sorted by exact average
rank. -/
theorem C4_counterexample :
    calculate_aggregate_rankings roundingStage2 (label_to_model s1pair) =
      [⟨"mB", 133, 3⟩, ⟨"mA", 133, 43⟩] ∧
    Qmean (specPositions roundingStage2 (label_to_model s1pair) "mA") <
      Qmean (specPositions roundingStage2 (label_to_model s1pair) "mB") := by
  refine ⟨by decide, ?_⟩
  have hsA : (specPositions roundingStage2 (label_to_model s1pair) "mA").sum = 57 := by
    decide
  have hlA : (specPositions roundingStage2 (label_to_model s1pair) "mA").length = 43 := by
    decide
  have hsB : (specPositions roundingStage2 (label_to_model s1pair) "mB").sum = 4 := by
    decide
  have hlB : (specPositions roundingStage2 (label_to_model s1pair) "mB").length = 3 := by
    decide
  rw [Qmean, Qmean, hsA, hlA, hsB, hlB]
  norm_num

/-- C4, amended: the aggregate list is sorted ascending by the stored
(2-decimal-rounded) average rank; it is a permutation of the encounter-order
aggregate, and within every class of equal rounded averages the encounter
order of first appearance is kept (stability); rounding happens before
sorting, so models whose exact means differ but round equal keep encounter
order rather than exact-mean order. -/
theorem C4_theorem (s2 : List Stage2Result) (ltm : List (String × String)) :
    List.Sorted aggLE (calculate_aggregate_rankings s2 ltm) ∧
    (calculate_aggregate_rankings s2 ltm).Perm (aggregateUnsorted s2 ltm) ∧
    ∀ v : Nat,
      (calculate_aggregate_rankings s2 ltm).filter (fun e => e.average_rank == v) =
        (aggregateUnsorted s2 ltm).filter (fun e => e.average_rank == v) :=
  ⟨List.sorted_insertionSort aggLE _, List.perm_insertionSort aggLE _,
    fun v => filter_insertionSort v _⟩

/-- C6: with at most 26 results carrying pairwise distinct models (both
facts hold for every Stage 1 output, see `stage1_wf`), Stage 2 assigns
exactly N distinct labels, the i-th result getting `"Response "` plus the
i-th letter of `A..Z`, and the label map is a bijection between those
labels and the Stage 1 models. -/
theorem C6_theorem (results : List Stage1Result)
    (hlen : results.length ≤ 26)
    (hnd : (results.map Stage1Result.model).Nodup) :
    (label_to_model results).length = results.length ∧
    (label_to_model results).map Prod.fst = labelsList results.length ∧
    ((label_to_model results).map Prod.fst).Nodup ∧
    (∀ lab ∈ (label_to_model results).map Prod.fst,
      ∃ c, ('A' ≤ c ∧ c ≤ 'Z') ∧ lab = "Response ".push c) ∧
    (label_to_model results).map Prod.snd = results.map Stage1Result.model ∧
    ((label_to_model results).map Prod.snd).Nodup := by
  refine ⟨?_, label_to_model_fst results, ?_, ?_, label_to_model_snd results, ?_⟩
  · simp [label_to_model]
  · rw [label_to_model_fst]
    exact nodup_labelsList hlen
  · intro lab hl
    rw [label_to_model_fst] at hl
    simp only [labelsList] at hl
    obtain ⟨i, hi, rfl⟩ := List.mem_map.mp hl
    have hi26 : i < 26 := lt_of_lt_of_le (List.mem_range.mp hi) hlen
    exact ⟨Char.ofNat (65 + i), labelChar_bounds i hi26, rfl⟩
  · rw [label_to_model_snd]
    exact hnd

/-- C6, witness at the two concrete Stage 1 results. -/
theorem C6_witness :
    (label_to_model s1pair).map Prod.fst = labelsList 2 ∧
    (label_to_model s1pair).map Prod.snd = s1pair.map Stage1Result.model :=
  ⟨(C6_theorem s1pair (by decide) (by decide)).2.1,
    (C6_theorem s1pair (by decide) (by decide)).2.2.2.2.1⟩

/-- C9: the aggregator ignores the stored `parsed_ranking` field (changing
that field arbitrarily never changes the aggregate), and when the stored
field equals the parse of the raw text the aggregate equals the one
computed from the stored field. -/
theorem C9_theorem (s2 : List Stage2Result) (ltm : List (String × String)) :
    ((∀ r ∈ s2, r.parsed_ranking = parse_ranking_from_text r.ranking) →
      calculate_aggregate_rankings s2 ltm = calcAggregateFromParsed s2 ltm) ∧
    (∀ f : Stage2Result → List String,
      calculate_aggregate_rankings
          (s2.map fun r => ⟨r.model, r.ranking, f r⟩) ltm =
        calculate_aggregate_rankings s2 ltm) := by
  constructor
  · intro h
    have aux : ∀ (l : List Stage2Result),
        (∀ r ∈ l, r.parsed_ranking = parse_ranking_from_text r.ranking) →
        ∀ acc : List (String × List Nat),
        l.foldl (fun mps r =>
          recordLabels ltm mps 1 (parse_ranking_from_text r.ranking)) acc =
        l.foldl (fun mps r => recordLabels ltm mps 1 r.parsed_ranking) acc := by
      intro l
      induction l with
      | nil => intro _ acc; rfl
      | cons r rest ih =>
        intro hl acc
        simp only [List.foldl_cons]
        rw [← hl r (List.mem_cons_self r rest)]
        exact ih (fun x hx => hl x (List.mem_cons_of_mem r hx)) _
    rw [calculate_aggregate_rankings, calcAggregateFromParsed, aggregateUnsorted,
      buildPositions, buildPositionsFromParsed, aux s2 h []]
  · intro f
    rw [calculate_aggregate_rankings, calculate_aggregate_rankings,
      aggregateUnsorted, aggregateUnsorted, buildPositions, buildPositions,
      List.foldl_map]

/-- C9, witness: re-parsing and the stored parses agree on the concrete
three-ranker input. -/
theorem C9_witness :
    calculate_aggregate_rankings meanStage2 (label_to_model s1pair) =
      calcAggregateFromParsed meanStage2 (label_to_model s1pair) :=
  (C9_theorem meanStage2 (label_to_model s1pair)).1 (by decide)

/-- C10: the generated title never exceeds 50 characters; a failed model
query yields the fixed fallback; and a stripped content longer than 50
characters is truncated to its first 47 characters plus `"..."`. -/
theorem C10_theorem (resp : Option String) :
    (generate_conversation_title resp).length ≤ 50 ∧
    (resp = none → generate_conversation_title resp = "New Conversation") ∧
    (∀ content, resp = some content →
      50 < (stripWhile isQuoteChar (stripWhile isSpaceChar content.toList)).length →
      (generate_conversation_title resp).toList =
        (stripWhile isQuoteChar (stripWhile isSpaceChar content.toList)).take 47 ++
          "...".toList) := by
  cases resp with
  | none => exact ⟨by decide, fun _ => rfl, fun c hc => by simp at hc⟩
  | some content =>
    have hgen : generate_conversation_title (some content) =
        if 50 < (stripWhile isQuoteChar (stripWhile isSpaceChar content.toList)).length
        then ⟨(stripWhile isQuoteChar (stripWhile isSpaceChar content.toList)).take 47 ++
          "...".toList⟩
        else ⟨stripWhile isQuoteChar (stripWhile isSpaceChar content.toList)⟩ := rfl
    refine ⟨?_, fun h => by simp at h, ?_⟩
    · rw [hgen]
      by_cases h50 :
          50 < (stripWhile isQuoteChar (stripWhile isSpaceChar content.toList)).length
      · rw [if_pos h50, strLength_mk, List.length_append, List.length_take]
        simp
      · rw [if_neg h50, strLength_mk]
        omega
    · intro c hc hlong
      obtain rfl : content = c := by injection hc
      rw [hgen, if_pos hlong]
      rfl

/-- C10, witness: a stripped 60-character content is truncated to
47 characters plus dots, within the 50-character bound. -/
theorem C10_witness :
    (generate_conversation_title (some longContent)).length ≤ 50 ∧
    (generate_conversation_title (some longContent)).toList =
      (stripWhile isQuoteChar (stripWhile isSpaceChar longContent.toList)).take 47 ++
        "...".toList :=
  ⟨(C10_theorem (some longContent)).1,
    (C10_theorem (some longContent)).2.2 longContent rfl (by decide)⟩

end Council
